import Mathlib

/-!
Chart update discovery and the update cache (`pkg/helm/updates.go`).

A shallow embedding of `pkg/helm/updates.go` together with the parts of the
imported packages it calls: `github.com/blang/semver` (tolerant parsing and
precedence of versions), `strings.TrimLeft`, the iteration over a Go map and
`sort.Sort`.

* Strings are Lean `String`s; the scanning functions work on their list of
  runes (`String.toList`).
* `uint64` fields are `Nat`; `strconv.ParseUint` rejects values `≥ 2^64`.
* The package-level `updateCache` map is passed explicitly; the mutex only
  serialises the operations, every operation below is one critical section.
* What the Go language leaves open (the order of `range` over a map, the
  arrangement of ties by `sort.Sort`) and what the network decides (the docker
  registry) are fields of `GoRuntime` and `Registry`.
-/

namespace strings

/-- The rune test `unicode.IsSpace`. -/
def isSpace (r : Char) : Bool :=
  decide (r.toNat ∈ [0x09, 0x0A, 0x0B, 0x0C, 0x0D, 0x20, 0x85, 0xA0, 0x1680,
    0x2028, 0x2029, 0x202F, 0x205F, 0x3000]) || (decide (0x2000 ≤ r.toNat) && decide (r.toNat ≤ 0x200A))

/-- The function `strings.TrimSpace` on the runes of a string. -/
def TrimSpace (s : List Char) : List Char :=
  ((s.dropWhile isSpace).reverse.dropWhile isSpace).reverse

/-- The function `strings.TrimPrefix(s, "v")`: drops one leading `v` when there is one. -/
def TrimPrefixV (s : List Char) : List Char :=
  match s with
  | c :: rest => if c = 'v' then rest else s
  | [] => s

/-- The function `strings.TrimLeft(s, cutset)`: drops every leading rune that occurs in
`cutset`, and stops at the first rune that does not. -/
def TrimLeft (s : String) (cutset : String) : String :=
  String.mk (s.toList.dropWhile (fun r => cutset.toList.contains r))

/-- Worker of `SplitN`: `cur` holds the runes of the current piece in reverse, `n` is the
number of pieces that may still be produced. -/
def splitAux (sep : Char) : Nat → List Char → List Char → List (List Char)
  | _, cur, [] => [cur.reverse]
  | n, cur, c :: cs =>
    if c = sep ∧ 1 < n then cur.reverse :: splitAux sep (n - 1) [] cs
    else splitAux sep n (c :: cur) cs

/-- The function `strings.SplitN(s, sep, n)` for a one-rune separator and `n > 0`: at most
`n` pieces, the last one being the unsplit remainder. -/
def SplitN (s : List Char) (sep : Char) (n : Nat) : List (List Char) :=
  splitAux sep n [] s

/-- The function `strings.Split(s, sep)` for a one-rune separator: every piece. -/
def Split (s : List Char) (sep : Char) : List (List Char) :=
  splitAux sep (s.length + 1) [] s

/-- The function `strings.Join(parts, sep)` for a one-rune separator. -/
def Join (parts : List (List Char)) (sep : Char) : List Char :=
  match parts with
  | [] => []
  | [p] => p
  | p :: rest => p ++ sep :: Join rest sep

/-- The function `strings.ContainsAny(s, chars)`. -/
def ContainsAny (s : List Char) (chars : List Char) : Bool :=
  s.any (fun r => chars.contains r)

/-- The index found by `strings.IndexRune(s, r)`, as the pair `(s[:i], s[i+1:])`; `none`
stands for the index `-1`. -/
def cutAtRune (r : Char) : List Char → Option (List Char × List Char)
  | [] => none
  | c :: cs =>
    if c = r then some ([], cs)
    else match cutAtRune r cs with
      | some (before, after) => some (c :: before, after)
      | none => none

end strings

namespace strconv

/-- Value of a decimal digit. -/
def digit (c : Char) : Option Nat :=
  if 48 ≤ c.toNat ∧ c.toNat ≤ 57 then some (c.toNat - 48) else none

/-- The function `strconv.ParseUint(s, 10, 64)`: `none` for the empty string, for a rune
that is no decimal digit and for a value that does not fit 64 bits. -/
def ParseUint (s : List Char) : Option Nat :=
  if s.isEmpty then none
  else
    match s.foldl (fun acc c =>
        match acc, digit c with
        | some n, some d => some (n * 10 + d)
        | _, _ => none) (some 0) with
    | some n => if n < 2 ^ 64 then some n else none
    | none => none

end strconv

namespace semver

/-- A prerelease identifier (`semver.PRVersion`). -/
structure PRVersion where
  VersionStr : String
  VersionNum : Nat
  IsNum : Bool
deriving DecidableEq

/-- A semantic version (`semver.Version`); `Build` carries no precedence. -/
structure Version where
  Major : Nat
  Minor : Nat
  Patch : Nat
  Pre : List PRVersion
  Build : List String
deriving DecidableEq

def numbers : List Char := "0123456789".toList

def alphas : List Char := "abcdefghijklmnopqrstuvwxyzABCDEFGHIJKLMNOPQRSTUVWXYZ-".toList

def alphanum : List Char := alphas ++ numbers

/-- True when every rune of `s` occurs in `set`. -/
def containsOnly (s : List Char) (set : List Char) : Bool :=
  s.all (fun r => set.contains r)

/-- True when `s` has more than one rune and starts with `0`. -/
def hasLeadingZeroes (s : List Char) : Bool :=
  decide (1 < s.length) && (s.head? == some '0')

/-- The constructor `semver.NewPRVersion`; `none` is the error result. -/
def NewPRVersion (s : List Char) : Option PRVersion :=
  if s.length = 0 then none
  else if containsOnly s numbers then
    if hasLeadingZeroes s then none
    else
      match strconv.ParseUint s with
      | none => none
      | some num => some { VersionStr := "", VersionNum := num, IsNum := true }
  else if containsOnly s alphanum then
    some { VersionStr := String.mk s, VersionNum := 0, IsNum := false }
  else none

/-- The loop of `Parse` over the prerelease identifiers. -/
def parsePre : List (List Char) → Option (List PRVersion)
  | [] => some []
  | prstr :: rest =>
    match NewPRVersion prstr with
    | none => none
    | some parsedPR =>
      match parsePre rest with
      | none => none
      | some more => some (parsedPR :: more)

/-- The loop of `Parse` over the build identifiers. -/
def parseBuild : List (List Char) → Option (List String)
  | [] => some []
  | str :: rest =>
    if str.length = 0 then none
    else if !containsOnly str alphanum then none
    else
      match parseBuild rest with
      | none => none
      | some more => some (String.mk str :: more)

/-- A numeric component of `Parse` (major, minor or patch). -/
def parseNumber (part : List Char) : Option Nat :=
  if !containsOnly part numbers then none
  else if hasLeadingZeroes part then none
  else strconv.ParseUint part

/-- The strict parser `semver.Parse`; `none` is the error result. -/
def Parse (s : List Char) : Option Version :=
  if s.length = 0 then none
  else
    match strings.SplitN s '.' 3 with
    | [p0, p1, p2] =>
      match parseNumber p0 with
      | none => none
      | some major =>
      match parseNumber p1 with
      | none => none
      | some minor =>
        let (build, patchStr1) :=
          match strings.cutAtRune '+' p2 with
          | some (before, after) => (strings.Split after '.', before)
          | none => ([], p2)
        let (prerelease, patchStr) :=
          match strings.cutAtRune '-' patchStr1 with
          | some (before, after) => (strings.Split after '.', before)
          | none => ([], patchStr1)
        match parseNumber patchStr with
        | none => none
        | some patch =>
        match parsePre prerelease with
        | none => none
        | some pre =>
        match parseBuild build with
        | none => none
        | some bld =>
          some { Major := major, Minor := minor, Patch := patch, Pre := pre, Build := bld }
    | _ => none

/-- Appends `"0"` pieces until there are three (`for len(parts) < 3`). -/
def fillParts (parts : List (List Char)) : List (List Char) :=
  parts ++ List.replicate (3 - parts.length) ['0']

/-- The tolerant parser `semver.ParseTolerant`: trims spaces, drops a leading `v`, fills a
missing minor or patch number with `0`, and then parses strictly. -/
def ParseTolerant (s : String) : Option Version :=
  let s1 := strings.TrimPrefixV (strings.TrimSpace s.toList)
  let parts := strings.SplitN s1 '.' 3
  if parts.length < 3 then
    if strings.ContainsAny (parts.getLastD []) ['+', '-'] then none
    else Parse (strings.Join (fillParts parts) '.')
  else Parse s1

/-- Precedence of two prerelease identifiers (`PRVersion.Compare`): `-1`, `0` or `1`. -/
def PRVersion.Compare (v o : PRVersion) : Int :=
  if v.IsNum && !o.IsNum then -1
  else if !v.IsNum && o.IsNum then 1
  else if v.IsNum && o.IsNum then
    if v.VersionNum = o.VersionNum then 0
    else if v.VersionNum > o.VersionNum then 1
    else -1
  else
    if v.VersionStr = o.VersionStr then 0
    else if v.VersionStr > o.VersionStr then 1
    else -1

/-- The loop of `Version.Compare` over the two prerelease lists and the test that follows
it: the first differing pair decides, otherwise the longer list is greater. -/
def comparePre : List PRVersion → List PRVersion → Int
  | [], [] => 0
  | [], _ :: _ => -1
  | _ :: _, [] => 1
  | a :: as, b :: bs =>
    let comp := a.Compare b
    if comp = 0 then comparePre as bs
    else if comp = 1 then 1
    else -1

/-- Precedence of two versions (`Version.Compare`): `-1`, `0` or `1`. -/
def Version.Compare (v o : Version) : Int :=
  if v.Major ≠ o.Major then
    if v.Major > o.Major then 1 else -1
  else if v.Minor ≠ o.Minor then
    if v.Minor > o.Minor then 1 else -1
  else if v.Patch ≠ o.Patch then
    if v.Patch > o.Patch then 1 else -1
  else if v.Pre.length = 0 ∧ o.Pre.length = 0 then 0
  else if v.Pre.length = 0 ∧ o.Pre.length > 0 then 1
  else if v.Pre.length > 0 ∧ o.Pre.length = 0 then -1
  else comparePre v.Pre o.Pre

/-- The part of `Version.Compare` that looks at the prerelease lists. -/
def prePart (p q : List PRVersion) : Int :=
  if p.length = 0 ∧ q.length = 0 then 0
  else if p.length = 0 ∧ q.length > 0 then 1
  else if p.length > 0 ∧ q.length = 0 then -1
  else comparePre p q

/-- The version `major.minor.patch` without prerelease and build identifiers. -/
def plain (major minor patch : Nat) : Version :=
  { Major := major, Minor := minor, Patch := patch, Pre := [], Build := [] }

def Version.LT (v o : Version) : Bool := decide (v.Compare o = -1)

def Version.GT (v o : Version) : Bool := decide (v.Compare o = 1)

def Version.LE (v o : Version) : Bool := decide (v.Compare o ≤ 0)

def Version.GE (v o : Version) : Bool := decide (v.Compare o ≥ 0)

end semver

namespace sort

/-- The adapter `sort.Reverse`: its `Less(i, j)` is the wrapped `Less(j, i)`. -/
def Reverse {α : Type} (less : α → α → Bool) : α → α → Bool :=
  fun a b => less b a

/-- What `sort.Sort` asks of a `Less` method: a strict weak ordering. -/
def StrictWeakOrder {α : Type} (less : α → α → Bool) : Prop :=
  (∀ a, less a a = false) ∧
  (∀ a b c, less a b = true → less b c = true → less a c = true) ∧
  (∀ a b c, less a b = false → less b c = false → less a c = false)

end sort

namespace helm

open semver

structure ChartUpdate where
  Tag : String
  Version : semver.Version
deriving DecidableEq

abbrev ChartUpdates := List ChartUpdate

/-- The method `ChartUpdates.Less(i, j)`, on the elements `v[i]` and `v[j]` it reads. -/
def ChartUpdates.Less (vi vj : ChartUpdate) : Bool :=
  vi.Version.LT vj.Version

/-- The method `ChartUpdates.ToTagList`. -/
def ChartUpdates.ToTagList (u : ChartUpdates) : List String :=
  u.foldl (fun tags update => tags ++ [update.Tag]) []

/-- The Go map `updateCache map[string]ChartUpdates`: `none` for a key without entry. -/
abbrev UpdateCache := String → Option ChartUpdates

/-- The cache built by `init`: `make(map[string]ChartUpdates)`. -/
def init : UpdateCache := fun _ => none

/-- The map read `m[key]`: the zero value (a nil slice) for a key without entry. -/
def mapIndex (m : UpdateCache) (key : String) : ChartUpdates :=
  match m key with
  | some updates => updates
  | none => []

/-- The map write `m[key] = value`. -/
def mapAssign (m : UpdateCache) (key : String) (value : ChartUpdates) : UpdateCache :=
  fun k => if k = key then some value else m k

/-- The built-in `delete(m, key)`. -/
def mapDelete (m : UpdateCache) (key : String) : UpdateCache :=
  fun k => if k = key then none else m k

def GetCachedUpdates (chartPath : String) (updateCache : UpdateCache) : ChartUpdates :=
  mapIndex updateCache chartPath

def setCachedUpdates (chartPath : String) (updates : ChartUpdates)
    (updateCache : UpdateCache) : UpdateCache :=
  mapAssign updateCache chartPath updates

/-- One round of the loop of `removeFromCachedUpdates`; `parsed` is the result of
`semver.ParseTolerant(tag)`, `none` when `parseErr != nil`. -/
def removeStep (tag : String) (parsed : Option Version) (newList : ChartUpdates)
    (update : ChartUpdate) : ChartUpdates :=
  match parsed with
  | none => if update.Tag ≠ tag then newList ++ [update] else newList
  | some version => if update.Version.GT version then newList ++ [update] else newList

def removeFromCachedUpdates (chartPath : String) (tag : String)
    (updateCache : UpdateCache) : UpdateCache :=
  let parsed := ParseTolerant tag
  let existingList := mapIndex updateCache chartPath
  let newList := existingList.foldl (removeStep tag parsed) []
  mapAssign updateCache chartPath newList

def deleteUpdateCacheForChart (chartPath : String) (updateCache : UpdateCache) : UpdateCache :=
  mapDelete updateCache chartPath

/-- What the Go language leaves to the runtime in this file. -/
structure GoRuntime where
  /-- The order in which `for k := range m` visits the keys of a map, given the keys. -/
  mapRange : List String → List String
  /-- The arrangement `sort.Sort` leaves a slice in, given the `Less` method. -/
  sortSort : (ChartUpdate → ChartUpdate → Bool) → ChartUpdates → ChartUpdates

/-- The contracts of the language: `range` visits every key of a map once, in an order
that is not specified; `sort.Sort` rearranges the slice, and the result is ascending by
`Less` when `Less` is a strict weak ordering (ties in no specified order). -/
structure GoRuntime.Lawful (rt : GoRuntime) : Prop where
  range_perm : ∀ keys, (rt.mapRange keys).Perm keys
  sort_perm : ∀ less data, (rt.sortSort less data).Perm data
  sort_sorted : ∀ less data, sort.StrictWeakOrder less →
    (rt.sortSort less data).Pairwise (fun a b => less b a = false)

/-- An error value: a new error or one wrapped by `errors.Wrapf(cause, format, args...)`. -/
inductive Error where
  | New (msg : String)
  | Wrapf (cause : Error) (format : String) (args : List String)
deriving DecidableEq

structure DockerAuthConfig where
  Username : String
  Password : String
deriving DecidableEq

/-- The fields of `imagetypes.SystemContext` that `CheckForUpdates` sets. -/
structure SystemContext where
  DockerInsecureSkipTLSVerify : Bool
  DockerDisableV1Ping : Bool
  DockerAuthConfig : DockerAuthConfig
deriving DecidableEq

/-- The docker registry client: `docker.ParseReference` and `docker.GetRepositoryTags`.
A reference is kept as the string it was parsed from. -/
structure Registry where
  ParseReference : String → Except Error String
  GetRepositoryTags : SystemContext → String → Except Error (List String)

/-- The registry access context `sysCtx` that `CheckForUpdates` builds from the license. -/
def sysCtx (licenseID : String) : SystemContext :=
  { DockerInsecureSkipTLSVerify := true
    DockerDisableV1Ping := true
    DockerAuthConfig := { Username := licenseID, Password := licenseID } }

/-- The write `m[tag] = struct{}{}` on a `map[string]struct{}`, kept as its list of keys. -/
def keyAssign (m : List String) (tag : String) : List String :=
  if tag ∈ m then m else m ++ [tag]

def removeDuplicates (rt : GoRuntime) (tags : List String) : List String :=
  let m := tags.foldl keyAssign []
  (rt.mapRange m).foldl (fun u k => u ++ [k]) []

/-- One round of the loop of `CheckForUpdates` over the tags. -/
def updateStep (currentVersion : Option Version) (availableUpdates : ChartUpdates)
    (tag : String) : ChartUpdates :=
  match ParseTolerant tag with
  | none => availableUpdates
  | some v =>
    match currentVersion with
    | some cur =>
      if v.LE cur then availableUpdates
      else availableUpdates ++ [{ Tag := tag, Version := v }]
    | none => availableUpdates ++ [{ Tag := tag, Version := v }]

def CheckForUpdates (reg : Registry) (rt : GoRuntime) (chartPath : String)
    (licenseID : String) (currentVersion : Option Version) (updateCache : UpdateCache) :
    Except Error ChartUpdates × UpdateCache :=
  let imageName := strings.TrimLeft chartPath "oci:"
  match reg.ParseReference imageName with
  | .error err =>
    (.error (.Wrapf err "failed to parse image ref %q" [imageName]), updateCache)
  | .ok ref =>
    match reg.GetRepositoryTags (sysCtx licenseID) ref with
    | .error err => (.error (.Wrapf err "failed to get repo tags" []), updateCache)
    | .ok tags =>
      let tags := removeDuplicates rt tags
      let availableUpdates := tags.foldl (updateStep currentVersion) []
      let availableUpdates := rt.sortSort (sort.Reverse ChartUpdates.Less) availableUpdates
      (.ok availableUpdates, setCachedUpdates chartPath availableUpdates updateCache)

/-- A runtime to evaluate with: `range` visits the keys in insertion order and `sort.Sort`
is an insertion sort. -/
def rt0 : GoRuntime where
  mapRange := fun keys => keys
  sortSort := fun less data => data.insertionSort (fun a b => less b a = false)

/-- A registry that parses every reference and lists the given tags. -/
def registryWith (tags : List String) : Registry where
  ParseReference := fun imageName => .ok imageName
  GetRepositoryTags := fun _ _ => .ok tags

/-- A registry whose tag listing fails, as on a network failure. -/
def registryDown : Registry where
  ParseReference := fun imageName => .ok imageName
  GetRepositoryTags := fun _ _ => .error (.New "connection refused")

/-- A registry client that rejects every reference. -/
def registryNoRef : Registry where
  ParseReference := fun _ => .error (.New "invalid reference format")
  GetRepositoryTags := fun _ _ => .ok []

/-- An operation on the cache, with the identity it is applied to. -/
inductive CacheOp where
  | set (chartPath : String) (updates : ChartUpdates)
  | remove (chartPath : String) (tag : String)
  | delete (chartPath : String)

def CacheOp.chartPath : CacheOp → String
  | .set chartPath _ => chartPath
  | .remove chartPath _ => chartPath
  | .delete chartPath => chartPath

def CacheOp.apply (op : CacheOp) (updateCache : UpdateCache) : UpdateCache :=
  match op with
  | .set chartPath updates => setCachedUpdates chartPath updates updateCache
  | .remove chartPath tag => removeFromCachedUpdates chartPath tag updateCache
  | .delete chartPath => deleteUpdateCacheForChart chartPath updateCache

/-- Runs the operations one after the other, each in its own critical section. -/
def runOps (ops : List CacheOp) (updateCache : UpdateCache) : UpdateCache :=
  ops.foldl (fun c op => op.apply c) updateCache

/-- The entry the loop of `CheckForUpdates` appends for a tag, if any. -/
def candidate (currentVersion : Option Version) (tag : String) : Option ChartUpdate :=
  match ParseTolerant tag with
  | none => none
  | some v =>
    match currentVersion with
    | some cur => if v.LE cur then none else some { Tag := tag, Version := v }
    | none => some { Tag := tag, Version := v }

/-- The test by which the loop of `removeFromCachedUpdates` keeps an entry. -/
def keeps (tag : String) (parsed : Option Version) (update : ChartUpdate) : Bool :=
  match parsed with
  | none => decide (update.Tag ≠ tag)
  | some version => update.Version.GT version

end helm

namespace semver

theorem threeWay_swap {α : Type} [LinearOrder α] (a b : α)
    [Decidable (a = b)] [Decidable (b = a)] [Decidable (a > b)] [Decidable (b > a)] :
    (if b = a then (0 : Int) else if b > a then 1 else -1)
      = - (if a = b then (0 : Int) else if a > b then 1 else -1) := by
  rcases lt_trichotomy a b with h | h | h
  · rw [if_neg h.ne', if_pos h, if_neg h.ne, if_neg (lt_asymm h)]; rfl
  · rw [if_pos h.symm, if_pos h]; rfl
  · rw [if_neg h.ne, if_neg (lt_asymm h), if_neg h.ne', if_pos h]

theorem threeWay_le_iff {α : Type} [LinearOrder α] (a b : α)
    [Decidable (a = b)] [Decidable (a > b)] :
    (if a = b then (0 : Int) else if a > b then 1 else -1) ≤ 0 ↔ a ≤ b := by
  rcases lt_trichotomy a b with h | h | h
  · rw [if_neg h.ne, if_neg (lt_asymm h)]; exact ⟨fun _ => h.le, fun _ => by decide⟩
  · rw [if_pos h]; exact ⟨fun _ => h.le, fun _ => le_refl _⟩
  · rw [if_neg h.ne', if_pos h]
    exact ⟨fun h0 => absurd h0 (by decide), fun h0 => absurd h (not_lt.mpr h0)⟩

theorem PRVersion.prCompare_range (v o : PRVersion) :
    v.Compare o = -1 ∨ v.Compare o = 0 ∨ v.Compare o = 1 := by
  unfold PRVersion.Compare
  split_ifs <;> simp

theorem PRVersion.prCompare_swap (v o : PRVersion) : o.Compare v = - v.Compare o := by
  unfold PRVersion.Compare
  cases hv : v.IsNum <;> cases ho : o.IsNum <;>
    simp only [Bool.and_true, Bool.and_false, Bool.not_true, Bool.not_false, Bool.false_and,
      Bool.true_and, if_true, if_false, neg_neg, Bool.false_eq_true]
  · exact threeWay_swap v.VersionStr o.VersionStr
  · exact threeWay_swap v.VersionNum o.VersionNum

theorem PRVersion.prCompare_le_trans (a b c : PRVersion)
    (hab : a.Compare b ≤ 0) (hbc : b.Compare c ≤ 0) : a.Compare c ≤ 0 := by
  unfold PRVersion.Compare at *
  revert hab hbc
  cases ha : a.IsNum <;> cases hb : b.IsNum <;> cases hc : c.IsNum <;>
    simp only [Bool.and_true, Bool.and_false, Bool.not_true, Bool.not_false, Bool.false_and,
      Bool.true_and, if_true, if_false, Bool.false_eq_true] <;> intro hab hbc
  all_goals first
    | exact absurd hab (by decide)
    | exact absurd hbc (by decide)
    | decide
    | exact (threeWay_le_iff a.VersionStr c.VersionStr).mpr
        (le_trans ((threeWay_le_iff a.VersionStr b.VersionStr).mp hab)
          ((threeWay_le_iff b.VersionStr c.VersionStr).mp hbc))
    | exact (threeWay_le_iff a.VersionNum c.VersionNum).mpr
        (le_trans ((threeWay_le_iff a.VersionNum b.VersionNum).mp hab)
          ((threeWay_le_iff b.VersionNum c.VersionNum).mp hbc))

theorem comparePre_range : ∀ (v o : List PRVersion),
    comparePre v o = -1 ∨ comparePre v o = 0 ∨ comparePre v o = 1
  | [], [] => by simp [comparePre]
  | [], _ :: _ => by simp [comparePre]
  | _ :: _, [] => by simp [comparePre]
  | a :: as, b :: bs => by
    simp only [comparePre]
    split_ifs
    · exact comparePre_range as bs
    · simp
    · simp

theorem comparePre_swap : ∀ (v o : List PRVersion), comparePre o v = - comparePre v o
  | [], [] => by simp [comparePre]
  | [], _ :: _ => by simp [comparePre]
  | _ :: _, [] => by simp [comparePre]
  | a :: as, b :: bs => by
    simp only [comparePre, PRVersion.prCompare_swap a b]
    rcases PRVersion.prCompare_range a b with h | h | h
    · rw [h]; simp
    · rw [h]; simpa using comparePre_swap as bs
    · rw [h]; simp

theorem comparePre_le_trans : ∀ (a b c : List PRVersion),
    comparePre a b ≤ 0 → comparePre b c ≤ 0 → comparePre a c ≤ 0
  | [], _, [] => by simp [comparePre]
  | [], _, _ :: _ => by simp [comparePre]
  | _ :: _, [], _ => by simp [comparePre]
  | _ :: _, _ :: _, [] => by simp [comparePre]
  | x :: xs, y :: ys, z :: zs => by
    intro hab hbc
    simp only [comparePre] at hab hbc ⊢
    have hxy : x.Compare y ≤ 0 := by
      rcases PRVersion.prCompare_range x y with h | h | h
      · rw [h]; decide
      · rw [h]
      · rw [h] at hab; simp at hab
    have hyz : y.Compare z ≤ 0 := by
      rcases PRVersion.prCompare_range y z with h | h | h
      · rw [h]; decide
      · rw [h]
      · rw [h] at hbc; simp at hbc
    have hxz := PRVersion.prCompare_le_trans x y z hxy hyz
    rcases PRVersion.prCompare_range x z with h | h | h
    · rw [h]; simp
    · -- then x ~ y ~ z
      have hzx : z.Compare x ≤ 0 := by rw [PRVersion.prCompare_swap x z, h]; simp
      have hyx : y.Compare x ≤ 0 := PRVersion.prCompare_le_trans y z x hyz hzx
      have hzy : z.Compare y ≤ 0 := PRVersion.prCompare_le_trans z x y hzx hxy
      have exy : x.Compare y = 0 := by
        rw [PRVersion.prCompare_swap x y] at hyx; omega
      have eyz : y.Compare z = 0 := by
        rw [PRVersion.prCompare_swap y z] at hzy; omega
      rw [exy] at hab; rw [eyz] at hbc; rw [h]
      simp only [if_true] at hab hbc ⊢
      exact comparePre_le_trans xs ys zs hab hbc
    · rw [h] at hxz; simp at hxz


theorem Version.Compare_eq (v o : Version) :
    v.Compare o =
      if v.Major ≠ o.Major then (if v.Major > o.Major then 1 else -1)
      else if v.Minor ≠ o.Minor then (if v.Minor > o.Minor then 1 else -1)
      else if v.Patch ≠ o.Patch then (if v.Patch > o.Patch then 1 else -1)
      else prePart v.Pre o.Pre := rfl

theorem prePart_range (p q : List PRVersion) :
    prePart p q = -1 ∨ prePart p q = 0 ∨ prePart p q = 1 := by
  cases p <;> cases q <;> simp [prePart]
  exact comparePre_range _ _

theorem prePart_swap (p q : List PRVersion) : prePart q p = - prePart p q := by
  cases p <;> cases q <;> simp [prePart]
  exact comparePre_swap _ _

theorem prePart_le_trans (p q r : List PRVersion)
    (hpq : prePart p q ≤ 0) (hqr : prePart q r ≤ 0) : prePart p r ≤ 0 := by
  cases p <;> cases q <;> cases r <;> simp [prePart] at hpq hqr ⊢
  exact comparePre_le_trans _ _ _ hpq hqr

theorem Version.Compare_range (v o : Version) :
    v.Compare o = -1 ∨ v.Compare o = 0 ∨ v.Compare o = 1 := by
  rw [Version.Compare_eq]
  split_ifs <;> first | exact prePart_range _ _ | simp

theorem Version.Compare_swap (v o : Version) : o.Compare v = - v.Compare o := by
  rw [Version.Compare_eq, Version.Compare_eq]
  split_ifs <;> first | exact prePart_swap _ _ | omega

theorem Version.Compare_le_iff (v o : Version) :
    v.Compare o ≤ 0 ↔
      v.Major < o.Major ∨ (v.Major = o.Major ∧ (v.Minor < o.Minor ∨ (v.Minor = o.Minor ∧
        (v.Patch < o.Patch ∨ (v.Patch = o.Patch ∧ prePart v.Pre o.Pre ≤ 0))))) := by
  rw [Version.Compare_eq]
  split_ifs <;> omega

theorem Version.Compare_le_trans (a b c : Version)
    (hab : a.Compare b ≤ 0) (hbc : b.Compare c ≤ 0) : a.Compare c ≤ 0 := by
  rw [Version.Compare_le_iff] at hab hbc ⊢
  by_cases h1 : prePart a.Pre b.Pre ≤ 0
  · by_cases h2 : prePart b.Pre c.Pre ≤ 0
    · have h3 := prePart_le_trans a.Pre b.Pre c.Pre h1 h2
      omega
    · omega
  · omega

theorem Version.Compare_self (v : Version) : v.Compare v = 0 := by
  have h := Version.Compare_swap v v
  omega

theorem Version.LT_iff (v o : Version) : v.LT o = true ↔ v.Compare o = -1 := by
  simp [Version.LT]

theorem Version.LT_false_iff (v o : Version) : v.LT o = false ↔ o.Compare v ≤ 0 := by
  have h1 := Version.Compare_range v o
  have h2 := Version.Compare_swap v o
  simp only [Version.LT, decide_eq_false_iff_not]
  omega

theorem Version.GE_iff_not_LT (v o : Version) : v.GE o = true ↔ v.LT o = false := by
  have h1 := Version.Compare_range v o
  simp only [Version.GE, Version.LT, decide_eq_true_eq, decide_eq_false_iff_not]
  omega

theorem Version.LE_iff_not_GT (v o : Version) : v.LE o = true ↔ v.GT o = false := by
  have h1 := Version.Compare_range v o
  simp only [Version.LE, Version.GT, decide_eq_true_eq, decide_eq_false_iff_not]
  omega

end semver

namespace helm
open semver

theorem foldl_append_singleton {α : Type} (l : List α) (acc : List α) :
    l.foldl (fun u k => u ++ [k]) acc = acc ++ l := by
  induction l generalizing acc with
  | nil => simp
  | cons x xs ih => simp [ih]

theorem keyAssign_foldl (tags : List String) (m : List String) (hm : m.Nodup) :
    (tags.foldl keyAssign m).Nodup ∧ ∀ t, t ∈ tags.foldl keyAssign m ↔ t ∈ m ∨ t ∈ tags := by
  induction tags generalizing m with
  | nil => simp [hm]
  | cons x xs ih =>
    have hx : (keyAssign m x).Nodup := by
      unfold keyAssign
      split_ifs with h
      · exact hm
      · exact List.nodup_append.mpr ⟨hm, List.nodup_singleton x, by
          intro a ha hb
          simp at hb; subst hb; exact h ha⟩
    have hmem : ∀ t, t ∈ keyAssign m x ↔ t ∈ m ∨ t = x := by
      intro t
      unfold keyAssign
      split_ifs with h
      · constructor
        · exact Or.inl
        · rintro (h1 | h1)
          · exact h1
          · subst h1; exact h
      · simp
    obtain ⟨h1, h2⟩ := ih (keyAssign m x) hx
    refine ⟨h1, fun t => ?_⟩
    rw [List.foldl_cons, h2, hmem]
    simp [or_assoc]

theorem removeDuplicates_nodup (rt : GoRuntime) (hrt : rt.Lawful) (tags : List String) :
    (removeDuplicates rt tags).Nodup := by
  unfold removeDuplicates
  simp only [foldl_append_singleton, List.nil_append]
  exact (hrt.range_perm _).nodup_iff.mpr (keyAssign_foldl tags [] List.nodup_nil).1

theorem mem_removeDuplicates (rt : GoRuntime) (hrt : rt.Lawful) (tags : List String)
    (t : String) : t ∈ removeDuplicates rt tags ↔ t ∈ tags := by
  unfold removeDuplicates
  simp only [foldl_append_singleton, List.nil_append]
  rw [(hrt.range_perm _).mem_iff, (keyAssign_foldl tags [] List.nodup_nil).2]
  simp

theorem updateStep_foldl (cur : Option Version) (tags : List String) (acc : ChartUpdates) :
    tags.foldl (updateStep cur) acc = acc ++ tags.filterMap (candidate cur) := by
  induction tags generalizing acc with
  | nil => simp
  | cons x xs ih =>
    rw [List.foldl_cons, ih]
    unfold updateStep candidate
    cases hp : ParseTolerant x with
    | none => simp [List.filterMap_cons, candidate, hp]
    | some v =>
      cases cur with
      | none => simp [List.filterMap_cons, candidate, hp]
      | some c =>
        by_cases hle : v.LE c = true
        · simp [List.filterMap_cons, candidate, hp, hle]
        · simp [List.filterMap_cons, candidate, hp, hle]

theorem removeStep_foldl (tag : String) (parsed : Option Version) (l acc : ChartUpdates) :
    l.foldl (removeStep tag parsed) acc = acc ++ l.filter (keeps tag parsed) := by
  induction l generalizing acc with
  | nil => simp
  | cons x xs ih =>
    rw [List.foldl_cons, ih]
    unfold removeStep keeps
    cases parsed with
    | none =>
      by_cases h : x.Tag = tag
      · simp [List.filter_cons, h]
      · simp [List.filter_cons, h]
    | some v =>
      by_cases h : x.Version.GT v = true
      · simp [List.filter_cons, h]
      · simp [List.filter_cons, h]

theorem candidate_eq_some (cur : Option Version) (tag : String) (e : ChartUpdate) :
    candidate cur tag = some e ↔
      e.Tag = tag ∧ ParseTolerant tag = some e.Version ∧
        ∀ c, cur = some c → e.Version.GT c = true := by
  unfold candidate
  cases hp : ParseTolerant tag with
  | none => simp
  | some v =>
    cases cur with
    | none =>
      simp only [Option.some.injEq, reduceCtorEq, false_implies, implies_true, and_true]
      constructor
      · rintro rfl; exact ⟨rfl, rfl⟩
      · rintro ⟨h1, h2⟩; cases e; simp_all
    | some c =>
      have hgt : v.GT c = true ↔ ¬ (v.LE c = true) := by
        unfold Version.GT Version.LE
        have := Version.Compare_range v c
        simp only [decide_eq_true_eq]
        omega
      by_cases hle : v.LE c = true
      · simp only [hle, if_true, reduceCtorEq, false_iff, Option.some.injEq, forall_eq']
        rintro ⟨_, h2, h3⟩
        rw [← h2] at h3
        exact (hgt.mp h3) hle
      · simp only [hle, Bool.false_eq_true, if_false, Option.some.injEq, forall_eq']
        constructor
        · rintro rfl; exact ⟨rfl, rfl, hgt.mpr hle⟩
        · rintro ⟨h1, h2, _⟩; cases e; simp_all

theorem candidate_tag (cur : Option Version) (tag : String) (e : ChartUpdate)
    (h : candidate cur tag = some e) : e.Tag = tag :=
  ((candidate_eq_some cur tag e).mp h).1

theorem filterMap_candidate_tags (cur : Option Version) (tags : List String) :
    ((tags.filterMap (candidate cur)).map (fun e => e.Tag)).Sublist tags := by
  induction tags with
  | nil => simp
  | cons x xs ih =>
    rw [List.filterMap_cons]
    cases h : candidate cur x with
    | none => exact ih.trans (List.sublist_cons_self x xs)
    | some e =>
      simp only [List.map_cons, candidate_tag cur x e h]
      exact ih.cons₂ x


theorem Less_strictWeakOrder : sort.StrictWeakOrder ChartUpdates.Less := by
  refine ⟨fun a => ?_, fun a b c hab hbc => ?_, fun a b c hab hbc => ?_⟩
  · simp [ChartUpdates.Less, Version.LT, Version.Compare_self]
  · unfold ChartUpdates.Less at *
    rw [Version.LT_iff] at hab hbc ⊢
    have h1 : a.Version.Compare c.Version ≤ 0 :=
      Version.Compare_le_trans a.Version b.Version c.Version (by omega) (by omega)
    rcases Version.Compare_range a.Version c.Version with h | h | h
    · exact h
    · have h2 : c.Version.Compare a.Version ≤ 0 := by
        rw [Version.Compare_swap a.Version c.Version]; omega
      have h3 := Version.Compare_le_trans c.Version a.Version b.Version h2 (by omega)
      rw [Version.Compare_swap b.Version c.Version] at h3
      omega
    · omega
  · unfold ChartUpdates.Less at *
    rw [Version.LT_false_iff] at hab hbc ⊢
    exact Version.Compare_le_trans _ _ _ hbc hab

theorem Reverse_strictWeakOrder {α : Type} (less : α → α → Bool)
    (h : sort.StrictWeakOrder less) : sort.StrictWeakOrder (sort.Reverse less) :=
  ⟨fun a => h.1 a, fun a b c hab hbc => h.2.1 c b a hbc hab,
    fun a b c hab hbc => h.2.2 c b a hbc hab⟩

theorem rt0_lawful : rt0.Lawful where
  range_perm := fun keys => List.Perm.refl keys
  sort_perm := fun less data => List.perm_insertionSort _ data
  sort_sorted := fun less data h => by
    have htotal : IsTotal ChartUpdate (fun a b => less b a = false) := ⟨fun a b => by
      cases hba : less b a
      · exact Or.inl rfl
      · right
        cases hab : less a b
        · rfl
        · have := h.2.1 a b a hab hba
          rw [h.1 a] at this
          exact absurd this (by decide)⟩
    have htrans : IsTrans ChartUpdate (fun a b => less b a = false) :=
      ⟨fun a b c hab hbc => h.2.2 c b a hbc hab⟩
    exact List.sorted_insertionSort (fun a b => less b a = false) data

theorem CheckForUpdates_ok (reg : Registry) (rt : GoRuntime) (chartPath licenseID : String)
    (currentVersion : Option Version) (updateCache : UpdateCache) (ref : String)
    (tags : List String)
    (href : reg.ParseReference (strings.TrimLeft chartPath "oci:") = .ok ref)
    (htags : reg.GetRepositoryTags (sysCtx licenseID) ref = .ok tags) :
    CheckForUpdates reg rt chartPath licenseID currentVersion updateCache =
      (.ok (rt.sortSort (sort.Reverse ChartUpdates.Less)
          ((removeDuplicates rt tags).filterMap (candidate currentVersion))),
        setCachedUpdates chartPath (rt.sortSort (sort.Reverse ChartUpdates.Less)
          ((removeDuplicates rt tags).filterMap (candidate currentVersion))) updateCache) := by
  unfold CheckForUpdates
  simp only [href, htags, updateStep_foldl, List.nil_append]

theorem mem_catalog (rt : GoRuntime) (hrt : rt.Lawful) (cur : Option Version)
    (tags : List String) (e : ChartUpdate) :
    e ∈ rt.sortSort (sort.Reverse ChartUpdates.Less)
        ((removeDuplicates rt tags).filterMap (candidate cur)) ↔
      e.Tag ∈ tags ∧ ParseTolerant e.Tag = some e.Version ∧
        ∀ c, cur = some c → e.Version.GT c = true := by
  rw [(hrt.sort_perm _ _).mem_iff, List.mem_filterMap]
  constructor
  · rintro ⟨t, ht, hc⟩
    obtain ⟨h1, h2, h3⟩ := (candidate_eq_some cur t e).mp hc
    subst h1
    exact ⟨(mem_removeDuplicates rt hrt tags _).mp ht, h2, h3⟩
  · rintro ⟨h1, h2, h3⟩
    exact ⟨e.Tag, (mem_removeDuplicates rt hrt tags _).mpr h1,
      (candidate_eq_some cur e.Tag e).mpr ⟨rfl, h2, h3⟩⟩

theorem catalog_tags_nodup (rt : GoRuntime) (hrt : rt.Lawful) (cur : Option Version)
    (tags : List String) :
    ((rt.sortSort (sort.Reverse ChartUpdates.Less)
        ((removeDuplicates rt tags).filterMap (candidate cur))).map (fun e => e.Tag)).Nodup := by
  rw [((hrt.sort_perm _ _).map _).nodup_iff]
  exact (filterMap_candidate_tags cur _).nodup (removeDuplicates_nodup rt hrt tags)

theorem catalog_sorted (rt : GoRuntime) (hrt : rt.Lawful) (cur : Option Version)
    (tags : List String) :
    (rt.sortSort (sort.Reverse ChartUpdates.Less)
        ((removeDuplicates rt tags).filterMap (candidate cur))).Pairwise
      (fun a b => a.Version.GE b.Version = true) := by
  have h := hrt.sort_sorted (sort.Reverse ChartUpdates.Less)
    ((removeDuplicates rt tags).filterMap (candidate cur))
    (Reverse_strictWeakOrder _ Less_strictWeakOrder)
  refine h.imp ?_
  intro a b hab
  rw [Version.GE_iff_not_LT]
  exact hab


theorem eq_pair_of_descending {l : ChartUpdates} {x y : ChartUpdate}
    (hperm : l.Perm [x, y])
    (hs : l.Pairwise (fun a b => a.Version.GE b.Version = true))
    (hxy : y.Version.GE x.Version = false) : l = [x, y] := by
  obtain ⟨a, b, rfl⟩ := List.length_eq_two.mp hperm.length_eq
  have ha : a ∈ [x, y] := hperm.subset (List.mem_cons_self a [b])
  have hb : b ∈ [x, y] := hperm.subset (List.mem_cons_of_mem a (List.mem_cons_self b []))
  have hx : x ∈ [a, b] := hperm.symm.subset (List.mem_cons_self x [y])
  have hy : y ∈ [a, b] := hperm.symm.subset (List.mem_cons_of_mem x (List.mem_cons_self y []))
  have hge : a.Version.GE b.Version = true := by
    have := List.pairwise_cons.mp hs
    exact this.1 b (List.mem_cons_self b [])
  simp only [List.mem_cons, List.mem_singleton, List.not_mem_nil, or_false] at ha hb hx hy
  rcases ha with rfl | rfl <;> rcases hb with rfl | rfl
  · rcases hy with rfl | rfl <;> simp_all
  · rfl
  · simp_all
  · rcases hx with rfl | rfl <;> simp_all

/-- C1: when the reference parses and the tag listing succeeds, `CheckForUpdates` returns a
catalog whose entries are exactly the pairs `(t, ParseTolerant t)` for the tags `t` of the
listing that parse tolerantly and, when a current version is given, whose version is
strictly greater than it; every tag occurs at most once in the catalog, so a tag listed
twice gives one entry; tags that do not parse give no entry; without a current version
every tag that parses gives an entry. With current version `1.2.0` and the tags
`[1.0.0, 1.2.0, 1.3.0, v2.0.0, garbage]` the catalog is
`[(v2.0.0, 2.0.0), (1.3.0, 1.3.0)]`, in that order. -/
theorem CheckForUpdates_catalog (reg : Registry) (rt : GoRuntime)
    (chartPath licenseID : String) (currentVersion : Option Version)
    (updateCache : UpdateCache) (ref : String) (tags : List String)
    (hrt : rt.Lawful)
    (href : reg.ParseReference (strings.TrimLeft chartPath "oci:") = .ok ref)
    (htags : reg.GetRepositoryTags (sysCtx licenseID) ref = .ok tags) :
    ∃ catalog : ChartUpdates,
      (CheckForUpdates reg rt chartPath licenseID currentVersion updateCache).1
        = .ok catalog ∧
      (∀ e : ChartUpdate, e ∈ catalog ↔
        e.Tag ∈ tags ∧ ParseTolerant e.Tag = some e.Version ∧
          ∀ cur, currentVersion = some cur → e.Version.GT cur = true) ∧
      (catalog.map (fun e => e.Tag)).Nodup ∧
      (∀ t, ParseTolerant t = none → t ∉ catalog.map (fun e => e.Tag)) ∧
      (currentVersion = none → ∀ t v, t ∈ tags → ParseTolerant t = some v →
        ({ Tag := t, Version := v } : ChartUpdate) ∈ catalog) ∧
      (currentVersion = some (plain 1 2 0) →
        tags = ["1.0.0", "1.2.0", "1.3.0", "v2.0.0", "garbage"] →
        catalog = [{ Tag := "v2.0.0", Version := plain 2 0 0 },
                   { Tag := "1.3.0", Version := plain 1 3 0 }]) := by
  refine ⟨_, by rw [CheckForUpdates_ok reg rt chartPath licenseID currentVersion updateCache
    ref tags href htags], mem_catalog rt hrt currentVersion tags,
    catalog_tags_nodup rt hrt currentVersion tags, ?_, ?_, ?_⟩
  · intro t hp hmem
    obtain ⟨e, he, rfl⟩ := List.mem_map.mp hmem
    have := ((mem_catalog rt hrt currentVersion tags e).mp he).2.1
    rw [hp] at this
    exact absurd this (by simp)
  · intro hcur t v ht hp
    refine (mem_catalog rt hrt currentVersion tags _).mpr ⟨ht, hp, ?_⟩
    intro cur hc
    rw [hcur] at hc
    exact absurd hc (by simp)
  · intro hcur htg
    subst hcur htg
    have hnd := catalog_tags_nodup rt hrt (some (plain 1 2 0))
      ["1.0.0", "1.2.0", "1.3.0", "v2.0.0", "garbage"]
    have hmem := mem_catalog rt hrt (some (plain 1 2 0))
      ["1.0.0", "1.2.0", "1.3.0", "v2.0.0", "garbage"]
    have hsorted := catalog_sorted rt hrt (some (plain 1 2 0))
      ["1.0.0", "1.2.0", "1.3.0", "v2.0.0", "garbage"]
    refine eq_pair_of_descending ?_ hsorted (by decide)
    refine (List.perm_ext_iff_of_nodup (List.Nodup.of_map _ hnd) (by decide)).mpr ?_
    intro e
    rw [hmem e]
    obtain ⟨t, v⟩ := e
    simp only [List.mem_cons, List.mem_singleton, List.not_mem_nil, or_false,
      Option.some.injEq, forall_eq', ChartUpdate.mk.injEq]
    constructor
    · rintro ⟨ht, hp, hg⟩
      rcases ht with rfl | rfl | rfl | rfl | rfl
      · have h0 : ParseTolerant "1.0.0" = some (plain 1 0 0) := by decide
        rw [h0] at hp; cases hp
        exact absurd hg (by decide)
      · have h0 : ParseTolerant "1.2.0" = some (plain 1 2 0) := by decide
        rw [h0] at hp; cases hp
        exact absurd hg (by decide)
      · have h0 : ParseTolerant "1.3.0" = some (plain 1 3 0) := by decide
        rw [h0] at hp; cases hp
        exact Or.inr ⟨rfl, rfl⟩
      · have h0 : ParseTolerant "v2.0.0" = some (plain 2 0 0) := by decide
        rw [h0] at hp; cases hp
        exact Or.inl ⟨rfl, rfl⟩
      · have h0 : ParseTolerant "garbage" = none := by decide
        rw [h0] at hp; cases hp
    · rintro (⟨rfl, rfl⟩ | ⟨rfl, rfl⟩)
      · exact ⟨by simp, by decide, by decide⟩
      · exact ⟨by simp, by decide, by decide⟩

/-- The catalog of the example with current version `1.2.0`, for the runtime `rt0`. -/
theorem CheckForUpdates_catalog_witness :
    (CheckForUpdates (registryWith ["1.0.0", "1.2.0", "1.3.0", "v2.0.0", "garbage"]) rt0
        "oci://registry.example.com/chart" "license" (some (plain 1 2 0)) init).1
      = .ok [{ Tag := "v2.0.0", Version := plain 2 0 0 },
             { Tag := "1.3.0", Version := plain 1 3 0 }] := by
  obtain ⟨catalog, h1, _, _, _, _, h6⟩ :=
    CheckForUpdates_catalog (registryWith ["1.0.0", "1.2.0", "1.3.0", "v2.0.0", "garbage"])
      rt0 "oci://registry.example.com/chart" "license" (some (plain 1 2 0)) init
      "//registry.example.com/chart" ["1.0.0", "1.2.0", "1.3.0", "v2.0.0", "garbage"]
      rt0_lawful rfl rfl
  rw [h1, h6 rfl rfl]

/-- C2, as amended: when the reference parses and the tag listing succeeds, the catalog
`CheckForUpdates` returns is descending by parsed version, each entry's version being
greater than or equal to the version of every entry after it, and no tag occurs twice
in it. -/
theorem CheckForUpdates_descending (reg : Registry) (rt : GoRuntime)
    (chartPath licenseID : String) (currentVersion : Option Version)
    (updateCache : UpdateCache) (ref : String) (tags : List String)
    (hrt : rt.Lawful)
    (href : reg.ParseReference (strings.TrimLeft chartPath "oci:") = .ok ref)
    (htags : reg.GetRepositoryTags (sysCtx licenseID) ref = .ok tags) :
    ∃ catalog : ChartUpdates,
      (CheckForUpdates reg rt chartPath licenseID currentVersion updateCache).1
        = .ok catalog ∧
      catalog.Pairwise (fun a b => a.Version.GE b.Version = true) ∧
      (catalog.map (fun e => e.Tag)).Nodup :=
  ⟨_, by rw [CheckForUpdates_ok reg rt chartPath licenseID currentVersion updateCache
      ref tags href htags], catalog_sorted rt hrt currentVersion tags,
    catalog_tags_nodup rt hrt currentVersion tags⟩

/-- A listing with a short version, a prerelease and an unparsable tag, for `rt0`. -/
theorem CheckForUpdates_descending_witness :
    ∃ catalog : ChartUpdates,
      (CheckForUpdates (registryWith ["1.0", "3.1.4", "v2.0.0-rc.1", "2.0.0", "latest"]) rt0
        "oci://registry.example.com/chart" "license" none init).1 = .ok catalog ∧
      catalog.Pairwise (fun a b => a.Version.GE b.Version = true) ∧
      (catalog.map (fun e => e.Tag)).Nodup :=
  CheckForUpdates_descending (registryWith ["1.0", "3.1.4", "v2.0.0-rc.1", "2.0.0", "latest"])
    rt0 "oci://registry.example.com/chart" "license" none init
    "//registry.example.com/chart" ["1.0", "3.1.4", "v2.0.0-rc.1", "2.0.0", "latest"]
    rt0_lawful rfl rfl

/-- C2, counterexample: the tags `1.0.0` and `v1.0.0` are distinct and parse to the same
version, so the catalog holds both and its second entry's version is not strictly
smaller than the first one's. -/
theorem CheckForUpdates_not_strictly_descending :
    rt0.Lawful ∧
    (CheckForUpdates (registryWith ["1.0.0", "v1.0.0"]) rt0
        "oci://registry.example.com/chart" "license" none init).1
      = .ok [{ Tag := "1.0.0", Version := plain 1 0 0 },
             { Tag := "v1.0.0", Version := plain 1 0 0 }] ∧
    ¬ List.Chain' (fun a b : ChartUpdate => a.Version.GT b.Version = true)
        [{ Tag := "1.0.0", Version := plain 1 0 0 },
         { Tag := "v1.0.0", Version := plain 1 0 0 }] :=
  ⟨rt0_lawful, by rfl, fun h => absurd (List.chain'_pair.mp h) (by decide)⟩


theorem removeFromCachedUpdates_entry (chartPath tag : String) (updateCache : UpdateCache) :
    removeFromCachedUpdates chartPath tag updateCache chartPath =
      some ((GetCachedUpdates chartPath updateCache).filter
        (keeps tag (ParseTolerant tag))) := by
  simp [removeFromCachedUpdates, mapAssign, GetCachedUpdates, removeStep_foldl]

theorem removeFromCachedUpdates_other (chartPath tag : String) (updateCache : UpdateCache)
    (k : String) (hk : k ≠ chartPath) :
    removeFromCachedUpdates chartPath tag updateCache k = updateCache k := by
  simp [removeFromCachedUpdates, mapAssign, hk]

/-- C3: when the identity has a cached catalog and the consumed tag parses tolerantly to
`v`, `removeFromCachedUpdates` replaces the catalog by its entries whose version is
strictly greater than `v`, in their order; every entry whose version is less than or
equal to `v` is gone and every entry with a greater version stays. -/
theorem removeFromCachedUpdates_parsed (updateCache : UpdateCache) (chartPath tag : String)
    (existing : ChartUpdates) (v : Version)
    (hcached : updateCache chartPath = some existing)
    (hparse : ParseTolerant tag = some v) :
    removeFromCachedUpdates chartPath tag updateCache chartPath
      = some (existing.filter (fun u => u.Version.GT v)) ∧
    GetCachedUpdates chartPath (removeFromCachedUpdates chartPath tag updateCache)
      = existing.filter (fun u => u.Version.GT v) ∧
    (∀ u ∈ existing, u.Version.LE v = true →
      u ∉ GetCachedUpdates chartPath (removeFromCachedUpdates chartPath tag updateCache)) ∧
    (∀ u ∈ existing, u.Version.GT v = true →
      u ∈ GetCachedUpdates chartPath (removeFromCachedUpdates chartPath tag updateCache)) := by
  have hget : GetCachedUpdates chartPath updateCache = existing := by
    simp [GetCachedUpdates, mapIndex, hcached]
  have hentry : removeFromCachedUpdates chartPath tag updateCache chartPath
      = some (existing.filter (fun u => u.Version.GT v)) := by
    rw [removeFromCachedUpdates_entry, hget, hparse]
    rfl
  have hread : GetCachedUpdates chartPath (removeFromCachedUpdates chartPath tag updateCache)
      = existing.filter (fun u => u.Version.GT v) := by
    simp [GetCachedUpdates, mapIndex, hentry]
  refine ⟨hentry, hread, ?_, ?_⟩
  · intro u _ hle hmem
    rw [hread, List.mem_filter] at hmem
    have := (Version.LE_iff_not_GT u.Version v).mp hle
    rw [this] at hmem
    exact absurd hmem.2 (by decide)
  · intro u hu hgt
    rw [hread, List.mem_filter]
    exact ⟨hu, hgt⟩

/-- Pruning the catalog `[2.0.0, 1.5.0, 1.0.0]` with the consumed tag `1.5.0`. -/
theorem removeFromCachedUpdates_parsed_witness :
    GetCachedUpdates "chart"
        (removeFromCachedUpdates "chart" "1.5.0"
          (setCachedUpdates "chart"
            [{ Tag := "2.0.0", Version := plain 2 0 0 },
             { Tag := "1.5.0", Version := plain 1 5 0 },
             { Tag := "1.0.0", Version := plain 1 0 0 }] init))
      = [{ Tag := "2.0.0", Version := plain 2 0 0 }] :=
  (removeFromCachedUpdates_parsed
    (setCachedUpdates "chart"
      [{ Tag := "2.0.0", Version := plain 2 0 0 },
       { Tag := "1.5.0", Version := plain 1 5 0 },
       { Tag := "1.0.0", Version := plain 1 0 0 }] init)
    "chart" "1.5.0"
    [{ Tag := "2.0.0", Version := plain 2 0 0 },
     { Tag := "1.5.0", Version := plain 1 5 0 },
     { Tag := "1.0.0", Version := plain 1 0 0 }]
    (plain 1 5 0) (by decide) (by decide)).2.1

/-- C4: when the consumed tag fails tolerant parsing, `removeFromCachedUpdates` still
returns a cache, in which the identity's catalog is the previous one without the entries
whose tag string equals the consumed tag: every other entry stays, unchanged and in its
order, whatever its version, and the entries of the other identities are untouched. -/
theorem removeFromCachedUpdates_unparsable (updateCache : UpdateCache)
    (chartPath tag : String) (hparse : ParseTolerant tag = none) :
    removeFromCachedUpdates chartPath tag updateCache chartPath
      = some ((GetCachedUpdates chartPath updateCache).filter
          (fun u => decide (u.Tag ≠ tag))) ∧
    GetCachedUpdates chartPath (removeFromCachedUpdates chartPath tag updateCache)
      = (GetCachedUpdates chartPath updateCache).filter (fun u => decide (u.Tag ≠ tag)) ∧
    (∀ u, u ∈ GetCachedUpdates chartPath (removeFromCachedUpdates chartPath tag updateCache)
      ↔ u ∈ GetCachedUpdates chartPath updateCache ∧ u.Tag ≠ tag) ∧
    (∀ k, k ≠ chartPath →
      removeFromCachedUpdates chartPath tag updateCache k = updateCache k) := by
  have hentry : removeFromCachedUpdates chartPath tag updateCache chartPath
      = some ((GetCachedUpdates chartPath updateCache).filter
          (fun u => decide (u.Tag ≠ tag))) := by
    rw [removeFromCachedUpdates_entry, hparse]
    rfl
  have hread : GetCachedUpdates chartPath (removeFromCachedUpdates chartPath tag updateCache)
      = (GetCachedUpdates chartPath updateCache).filter (fun u => decide (u.Tag ≠ tag)) := by
    rw [GetCachedUpdates, mapIndex, hentry]
  refine ⟨hentry, hread, ?_, fun k hk => removeFromCachedUpdates_other chartPath tag _ k hk⟩
  intro u
  rw [hread, List.mem_filter]
  simp

/-- Pruning with the consumed tag `not-a-version`, which does not parse. -/
theorem removeFromCachedUpdates_unparsable_witness :
    GetCachedUpdates "chart"
        (removeFromCachedUpdates "chart" "not-a-version"
          (setCachedUpdates "chart"
            [{ Tag := "2.0.0", Version := plain 2 0 0 },
             { Tag := "not-a-version", Version := plain 1 5 0 },
             { Tag := "1.0.0", Version := plain 1 0 0 }] init))
      = [{ Tag := "2.0.0", Version := plain 2 0 0 },
         { Tag := "1.0.0", Version := plain 1 0 0 }] :=
  ((removeFromCachedUpdates_unparsable
    (setCachedUpdates "chart"
      [{ Tag := "2.0.0", Version := plain 2 0 0 },
       { Tag := "not-a-version", Version := plain 1 5 0 },
       { Tag := "1.0.0", Version := plain 1 0 0 }] init)
    "chart" "not-a-version" (by decide)).2.1).trans (by decide)

theorem CheckForUpdates_ref_error (reg : Registry) (rt : GoRuntime)
    (chartPath licenseID : String) (currentVersion : Option Version)
    (updateCache : UpdateCache) (err : Error)
    (href : reg.ParseReference (strings.TrimLeft chartPath "oci:") = .error err) :
    CheckForUpdates reg rt chartPath licenseID currentVersion updateCache =
      (.error (.Wrapf err "failed to parse image ref %q"
        [strings.TrimLeft chartPath "oci:"]), updateCache) := by
  unfold CheckForUpdates
  simp only [href]

theorem CheckForUpdates_tags_error (reg : Registry) (rt : GoRuntime)
    (chartPath licenseID : String) (currentVersion : Option Version)
    (updateCache : UpdateCache) (ref : String) (err : Error)
    (href : reg.ParseReference (strings.TrimLeft chartPath "oci:") = .ok ref)
    (htags : reg.GetRepositoryTags (sysCtx licenseID) ref = .error err) :
    CheckForUpdates reg rt chartPath licenseID currentVersion updateCache =
      (.error (.Wrapf err "failed to get repo tags" []), updateCache) := by
  unfold CheckForUpdates
  simp only [href, htags]

/-- C5: when the reference fails to parse or the tag listing fails, `CheckForUpdates`
returns an error that wraps the cause, and no catalog, and the cache it leaves is the
cache it was given, so every catalog cached before is still there. -/
theorem CheckForUpdates_failure (reg : Registry) (rt : GoRuntime)
    (chartPath licenseID : String) (currentVersion : Option Version)
    (updateCache : UpdateCache)
    (hfail : (∃ err, reg.ParseReference (strings.TrimLeft chartPath "oci:") = .error err) ∨
      (∃ ref err, reg.ParseReference (strings.TrimLeft chartPath "oci:") = .ok ref ∧
        reg.GetRepositoryTags (sysCtx licenseID) ref = .error err)) :
    (∃ cause format args,
      (CheckForUpdates reg rt chartPath licenseID currentVersion updateCache).1
        = .error (.Wrapf cause format args)) ∧
    (CheckForUpdates reg rt chartPath licenseID currentVersion updateCache).2
      = updateCache := by
  rcases hfail with ⟨err, h⟩ | ⟨ref, err, h1, h2⟩
  · rw [CheckForUpdates_ref_error reg rt chartPath licenseID currentVersion updateCache err h]
    exact ⟨⟨_, _, _, rfl⟩, rfl⟩
  · rw [CheckForUpdates_tags_error reg rt chartPath licenseID currentVersion updateCache ref
      err h1 h2]
    exact ⟨⟨_, _, _, rfl⟩, rfl⟩

/-- A failed tag listing leaves the catalog cached before in place. -/
theorem CheckForUpdates_failure_witness :
    (CheckForUpdates registryDown rt0 "oci://registry.example.com/chart" "license" none
        (setCachedUpdates "oci://registry.example.com/chart"
          [{ Tag := "2.0.0", Version := plain 2 0 0 }] init)).2
      = setCachedUpdates "oci://registry.example.com/chart"
          [{ Tag := "2.0.0", Version := plain 2 0 0 }] init :=
  (CheckForUpdates_failure registryDown rt0 "oci://registry.example.com/chart" "license" none
    (setCachedUpdates "oci://registry.example.com/chart"
      [{ Tag := "2.0.0", Version := plain 2 0 0 }] init)
    (Or.inr ⟨"//registry.example.com/chart", .New "connection refused", rfl, rfl⟩)).2

/-- C6: after a successful `CheckForUpdates` the identity's cache entry is the catalog the
call returned, also when that catalog is empty, and `GetCachedUpdates` reads it back,
whatever was cached before; `setCachedUpdates` replaces the entry by the catalog it is
given, and setting the same catalog twice gives the cache of setting it once. -/
theorem CheckForUpdates_sets_cache (reg : Registry) (rt : GoRuntime)
    (chartPath licenseID : String) (currentVersion : Option Version)
    (updateCache : UpdateCache) (ref : String) (tags : List String)
    (href : reg.ParseReference (strings.TrimLeft chartPath "oci:") = .ok ref)
    (htags : reg.GetRepositoryTags (sysCtx licenseID) ref = .ok tags) :
    (∃ catalog : ChartUpdates,
      (CheckForUpdates reg rt chartPath licenseID currentVersion updateCache).1
        = .ok catalog ∧
      (CheckForUpdates reg rt chartPath licenseID currentVersion updateCache).2 chartPath
        = some catalog ∧
      GetCachedUpdates chartPath
        (CheckForUpdates reg rt chartPath licenseID currentVersion updateCache).2
        = catalog) ∧
    (∀ old new : ChartUpdates,
      GetCachedUpdates chartPath
        (setCachedUpdates chartPath new (setCachedUpdates chartPath old updateCache))
        = new) ∧
    (∀ updates : ChartUpdates,
      setCachedUpdates chartPath updates (setCachedUpdates chartPath updates updateCache)
        = setCachedUpdates chartPath updates updateCache) := by
  refine ⟨⟨_, by rw [CheckForUpdates_ok reg rt chartPath licenseID currentVersion updateCache
    ref tags href htags], ?_, ?_⟩, ?_, ?_⟩
  · rw [CheckForUpdates_ok reg rt chartPath licenseID currentVersion updateCache
      ref tags href htags]
    simp [setCachedUpdates, mapAssign]
  · rw [CheckForUpdates_ok reg rt chartPath licenseID currentVersion updateCache
      ref tags href htags]
    simp [GetCachedUpdates, mapIndex, setCachedUpdates, mapAssign]
  · intro old new
    simp [GetCachedUpdates, mapIndex, setCachedUpdates, mapAssign]
  · intro updates
    funext k
    simp only [setCachedUpdates, mapAssign]
    split_ifs <;> rfl

/-- A listing without parseable tag replaces the cached catalog by the empty one. -/
theorem CheckForUpdates_sets_cache_witness :
    GetCachedUpdates "oci://registry.example.com/chart"
      (CheckForUpdates (registryWith ["garbage"]) rt0 "oci://registry.example.com/chart"
        "license" none
        (setCachedUpdates "oci://registry.example.com/chart"
          [{ Tag := "2.0.0", Version := plain 2 0 0 }] init)).2 = [] := by
  obtain ⟨⟨catalog, h1, _, h3⟩, _, _⟩ :=
    CheckForUpdates_sets_cache (registryWith ["garbage"]) rt0
      "oci://registry.example.com/chart" "license" none
      (setCachedUpdates "oci://registry.example.com/chart"
        [{ Tag := "2.0.0", Version := plain 2 0 0 }] init)
      "//registry.example.com/chart" ["garbage"] rfl rfl
  rw [h3]
  have h0 : (CheckForUpdates (registryWith ["garbage"]) rt0
      "oci://registry.example.com/chart" "license" none
      (setCachedUpdates "oci://registry.example.com/chart"
        [{ Tag := "2.0.0", Version := plain 2 0 0 }] init)).1 = .ok [] := by rfl
  rw [h0] at h1
  cases h1
  rfl


/-- C7, as amended: for an identity without cache entry, `deleteUpdateCacheForChart`
leaves the cache mapping equal, and `removeFromCachedUpdates` leaves the entry of every
other identity equal and the catalog `GetCachedUpdates` reads for every identity equal
(empty for the identity itself), while it stores an empty catalog under the identity. -/
theorem absent_identity_remove_delete (updateCache : UpdateCache) (chartPath tag : String)
    (habsent : updateCache chartPath = none) :
    deleteUpdateCacheForChart chartPath updateCache = updateCache ∧
    (∀ k, k ≠ chartPath →
      removeFromCachedUpdates chartPath tag updateCache k = updateCache k) ∧
    (∀ k, GetCachedUpdates k (removeFromCachedUpdates chartPath tag updateCache)
      = GetCachedUpdates k updateCache) ∧
    removeFromCachedUpdates chartPath tag updateCache chartPath = some [] := by
  have hget : GetCachedUpdates chartPath updateCache = [] := by
    simp [GetCachedUpdates, mapIndex, habsent]
  have hentry : removeFromCachedUpdates chartPath tag updateCache chartPath = some [] := by
    rw [removeFromCachedUpdates_entry, hget]
    rfl
  refine ⟨?_, fun k hk => removeFromCachedUpdates_other chartPath tag _ k hk, ?_, hentry⟩
  · funext k
    simp only [deleteUpdateCacheForChart, mapDelete]
    split_ifs with h
    · rw [h, habsent]
    · rfl
  · intro k
    by_cases hk : k = chartPath
    · subst hk
      rw [hget, GetCachedUpdates, mapIndex, hentry]
    · rw [GetCachedUpdates, GetCachedUpdates, mapIndex, mapIndex,
        removeFromCachedUpdates_other chartPath tag _ k hk]

/-- Deleting and pruning the identity `chart` in the initial cache. -/
theorem absent_identity_remove_delete_witness :
    deleteUpdateCacheForChart "chart" init = init ∧
    GetCachedUpdates "chart" (removeFromCachedUpdates "chart" "1.0.0" init) = [] :=
  have h := absent_identity_remove_delete init "chart" "1.0.0" rfl
  ⟨h.1, h.2.2.1 "chart"⟩

/-- C7, counterexample: in the initial cache the identity `chart` has no entry, and
`removeFromCachedUpdates` creates one, so the cache mapping is not the one before. -/
theorem removeFromCachedUpdates_absent_creates_entry :
    init "chart" = none ∧
    removeFromCachedUpdates "chart" "1.0.0" init "chart" = some [] ∧
    removeFromCachedUpdates "chart" "1.0.0" init ≠ init :=
  ⟨rfl, by decide, fun h => absurd (congrFun h "chart") (by decide)⟩

/-- C8, the code at the failing input: the reference `CheckForUpdates` derives from the
identity `ci.example.com/chart`, which has no scheme marker, is `.example.com/chart`;
`strings.TrimLeft` drops the leading `c` and `i` because they occur in the cutset
`oci:`. -/
theorem CheckForUpdates_reference_trimmed :
    strings.TrimLeft "ci.example.com/chart" "oci:" = ".example.com/chart" ∧
    (CheckForUpdates registryNoRef rt0 "ci.example.com/chart" "license" none init).1
      = .error (.Wrapf (.New "invalid reference format") "failed to parse image ref %q"
          [".example.com/chart"]) ∧
    strings.TrimLeft "oci://ci.example.com/chart" "oci:" = "//ci.example.com/chart" :=
  ⟨by decide, by rfl, by decide⟩

/-- C9: `GetCachedUpdates` is total and returns the empty catalog for an identity without
cache entry; no identity has an entry in the initial cache, and none has one right after
`deleteUpdateCacheForChart` of it, so the catalog read is empty in both cases. -/
theorem GetCachedUpdates_absent (updateCache : UpdateCache) (chartPath : String)
    (habsent : updateCache chartPath = none) :
    GetCachedUpdates chartPath updateCache = [] ∧
    (GetCachedUpdates chartPath updateCache).length = 0 ∧
    (init chartPath = none ∧ GetCachedUpdates chartPath init = []) ∧
    (∀ cache : UpdateCache,
      deleteUpdateCacheForChart chartPath cache chartPath = none ∧
      GetCachedUpdates chartPath (deleteUpdateCacheForChart chartPath cache) = []) := by
  have hget : GetCachedUpdates chartPath updateCache = [] := by
    simp [GetCachedUpdates, mapIndex, habsent]
  refine ⟨hget, by rw [hget]; rfl, ⟨rfl, rfl⟩, fun cache => ?_⟩
  simp [GetCachedUpdates, mapIndex, deleteUpdateCacheForChart, mapDelete]

/-- Reading an identity right after its cache entry was deleted. -/
theorem GetCachedUpdates_absent_witness :
    GetCachedUpdates "chart"
      (deleteUpdateCacheForChart "chart"
        (setCachedUpdates "chart" [{ Tag := "2.0.0", Version := plain 2 0 0 }] init)) = [] :=
  ((GetCachedUpdates_absent init "chart" rfl).2.2.2
    (setCachedUpdates "chart" [{ Tag := "2.0.0", Version := plain 2 0 0 }] init)).2

theorem CacheOp.apply_other (op : CacheOp) (updateCache : UpdateCache) (k : String)
    (hk : op.chartPath ≠ k) : op.apply updateCache k = updateCache k := by
  have hk2 : k ≠ op.chartPath := fun h => hk h.symm
  cases op with
  | set p u =>
    simp only [CacheOp.chartPath] at hk2
    simp [CacheOp.apply, setCachedUpdates, mapAssign, hk2]
  | remove p t =>
    simp only [CacheOp.chartPath] at hk2
    exact removeFromCachedUpdates_other p t updateCache k hk2
  | delete p =>
    simp only [CacheOp.chartPath] at hk2
    simp [CacheOp.apply, deleteUpdateCacheForChart, mapDelete, hk2]

theorem CacheOp.apply_congr (op : CacheOp) (c1 c2 : UpdateCache) (k : String)
    (h : c1 k = c2 k) : op.apply c1 k = op.apply c2 k := by
  by_cases hk : op.chartPath = k
  · cases op with
    | set p u =>
      simp [CacheOp.apply, setCachedUpdates, mapAssign, h]
    | remove p t =>
      simp only [CacheOp.chartPath] at hk
      subst hk
      simp only [CacheOp.apply]
      rw [removeFromCachedUpdates_entry, removeFromCachedUpdates_entry,
        GetCachedUpdates, GetCachedUpdates, mapIndex, mapIndex, h]
    | delete p =>
      simp only [CacheOp.chartPath] at hk
      subst hk
      simp [CacheOp.apply, deleteUpdateCacheForChart, mapDelete]
  · rw [CacheOp.apply_other op c1 k hk, CacheOp.apply_other op c2 k hk, h]

theorem runOps_filter (ops : List CacheOp) (c1 c2 : UpdateCache) (k : String)
    (h : c1 k = c2 k) :
    runOps ops c1 k = runOps (ops.filter (fun op => decide (op.chartPath = k))) c2 k := by
  induction ops generalizing c1 c2 with
  | nil => exact h
  | cons op rest ih =>
    by_cases hk : op.chartPath = k
    · have hf : (op :: rest).filter (fun op => decide (op.chartPath = k))
          = op :: rest.filter (fun op => decide (op.chartPath = k)) := by
        simp [List.filter_cons, hk]
      rw [hf]
      simp only [runOps, List.foldl_cons]
      exact ih (op.apply c1) (op.apply c2) (CacheOp.apply_congr op c1 c2 k h)
    · have hf : (op :: rest).filter (fun op => decide (op.chartPath = k))
          = rest.filter (fun op => decide (op.chartPath = k)) := by
        simp [List.filter_cons, hk]
      rw [hf]
      simp only [runOps, List.foldl_cons]
      exact ih (op.apply c1) c2 ((CacheOp.apply_other op c1 k hk).trans h)

/-- C10: for two distinct identities `A` and `B`, each of `setCachedUpdates`,
`removeFromCachedUpdates` and `deleteUpdateCacheForChart` applied to `A` leaves the cache
entry of `B` as it was; and after any sequence of such operations, the entry of `B` is
the one obtained by running only the operations on `B`, in their order, whatever the
operations on `A` (and on any other identity) were. -/
theorem cache_isolation (updateCache : UpdateCache) (A B : String) (hAB : A ≠ B) :
    (∀ updates, setCachedUpdates A updates updateCache B = updateCache B) ∧
    (∀ tag, removeFromCachedUpdates A tag updateCache B = updateCache B) ∧
    deleteUpdateCacheForChart A updateCache B = updateCache B ∧
    (∀ ops : List CacheOp,
      runOps ops updateCache B
        = runOps (ops.filter (fun op => decide (op.chartPath = B))) updateCache B) := by
  have hBA : B ≠ A := fun h => hAB h.symm
  refine ⟨fun updates => ?_, fun tag => ?_, ?_, fun ops => ?_⟩
  · simp [setCachedUpdates, mapAssign, hBA]
  · exact removeFromCachedUpdates_other A tag updateCache B hBA
  · simp [deleteUpdateCacheForChart, mapDelete, hBA]
  · exact runOps_filter ops updateCache updateCache B rfl

/-- An interleaving of operations on `A` and `B`, read at `B`. -/
theorem cache_isolation_witness :
    runOps [.set "B" [{ Tag := "2.0.0", Version := plain 2 0 0 },
                      { Tag := "1.0.0", Version := plain 1 0 0 }],
            .set "A" [{ Tag := "3.0.0", Version := plain 3 0 0 }],
            .remove "A" "3.0.0", .remove "B" "1.0.0", .delete "A"] init "B"
      = runOps [.set "B" [{ Tag := "2.0.0", Version := plain 2 0 0 },
                          { Tag := "1.0.0", Version := plain 1 0 0 }],
                .remove "B" "1.0.0"] init "B" :=
  (cache_isolation init "A" "B" (by decide)).2.2.2
    [.set "B" [{ Tag := "2.0.0", Version := plain 2 0 0 },
               { Tag := "1.0.0", Version := plain 1 0 0 }],
     .set "A" [{ Tag := "3.0.0", Version := plain 3 0 0 }],
     .remove "A" "3.0.0", .remove "B" "1.0.0", .delete "A"]

end helm
